import Mathlib

/-!
Verification development for the AI-Home-Plus-Scheduler core: a shallow
embedding, in Lean 4, of the scheduling core of the repository —
`src/server/utils/time.js` (TimeMath), `src/server/utils/data.js`
(Normalizer, recovered as `src/unnamed/part_005`), `src/server/scheduler.js`
(Scheduler) and the validator module (`src/unnamed/part_004`) — together
with theorems settling the frozen claims about that core.

Modelling conventions, fixed once here:

* JavaScript values that the core reads from input records are modelled by
  the inductive `JVal` (null, booleans, numbers, strings, and one level of
  arrays of scalars — the only array shape the core ever consumes is the
  multi-id employee link field of an availability record).  JS numbers are
  modelled as exact rationals `ℚ`; the core does no float-specific
  arithmetic, and none of the claims concerns rounding of IEEE doubles.
* Timestamps are modelled after parsing: a date-like value is an
  `Option Int` (milliseconds since the epoch), `none` standing for a value
  `toDate` fails to parse (absent, null, invalid date string).  String/date
  parsing itself (`toDate` on strings, `combineDateTime`'s calendar
  arithmetic) is host- and timezone-dependent and is not re-modelled:
  an input record carries the *combined* parse result of its date/time
  fields directly, in the fields `startT`/`endT` of `Rec`.
* `String.prototype.localeCompare` (used only as the final tie-break on
  employee names, with ASCII names throughout the repository's data and
  tests) is modelled as code-unit lexicographic comparison, and the
  receiver is modelled after string coercion (`jsToStr`).  The coercion is
  total, while the source's method call has nothing to dispatch to when
  the receiver `name || ""` is a truthy non-string and throws there; the
  total comparator cannot carry that error path, so it is modelled
  separately by `nameTieBreakThrows` (see C9).
* `Array.prototype.sort` is guaranteed stable by the language spec; for the
  consistent comparator the scheduler uses, any stable sort computes the
  same list, so it is modelled by the stable `List.insertionSort`.
* JS `Map` (insertion-ordered, set-overwrites-in-place) is modelled by an
  association list with `aSet`/`aGet`; JS object records by association
  lists of string keys.
* `Number(x.toFixed(2))` is modelled by exact rounding to two decimals
  (`round2`); it only decorates the totals summary and no claim depends on
  its tie behaviour.
-/

/-- Scalar JavaScript value as read from an input record. -/
inductive JAtom where
  | nullv : JAtom
  | boolv (b : Bool) : JAtom
  | num (q : ℚ) : JAtom
  | str (s : String) : JAtom
deriving DecidableEq, Repr

/-- JavaScript value: a scalar or one level of array of scalars (the only
array shape the scheduling core consumes). -/
inductive JVal where
  | nullv : JVal
  | boolv (b : Bool) : JVal
  | num (q : ℚ) : JVal
  | str (s : String) : JVal
  | arr (xs : List JAtom) : JVal
deriving DecidableEq, Repr

/-- Embed a scalar back into `JVal` (used for elements of an array-valued
employee link field). -/
def JAtom.toJVal : JAtom → JVal
  | .nullv => .nullv
  | .boolv b => .boolv b
  | .num q => .num q
  | .str s => .str s

/-- JS truthiness of a scalar. -/
def JAtom.truthy : JAtom → Bool
  | .nullv => false
  | .boolv b => b
  | .num q => decide (q ≠ 0)
  | .str s => decide (s ≠ "")

/-- JS truthiness (`if (v)`): null/undefined, false, 0 and "" are falsy;
every array (object) is truthy. -/
def jsTruthy : JVal → Bool
  | .nullv => false
  | .boolv b => b
  | .num q => decide (q ≠ 0)
  | .str s => decide (s ≠ "")
  | .arr _ => true

/-- ASCII upper-casing of one character (model of the ASCII fragment of
`toUpperCase`; every role/status token in the repository is ASCII). -/
def upChar (c : Char) : Char :=
  if 97 ≤ c.toNat ∧ c.toNat ≤ 122 then Char.ofNat (c.toNat - 32) else c

/-- ASCII lower-casing of one character. -/
def downChar (c : Char) : Char :=
  if 65 ≤ c.toNat ∧ c.toNat ≤ 90 then Char.ofNat (c.toNat + 32) else c

/-- Model of `String.prototype.toUpperCase` (ASCII fragment), written over
the character list so that it evaluates by kernel reduction. -/
def strUpper (s : String) : String := ⟨s.data.map upChar⟩

/-- Model of `String.prototype.toLowerCase` (ASCII fragment). -/
def strLower (s : String) : String := ⟨s.data.map downChar⟩

/-- Whitespace for `String.prototype.trim` (the whitespace classes the
repository's data can contain). -/
def wsChar (c : Char) : Bool := c = ' ' || c = '\t' || c = '\n' || c = '\r'

/-- Model of `String.prototype.trim`. -/
def strTrim (s : String) : String :=
  ⟨((s.data.dropWhile wsChar).reverse.dropWhile wsChar).reverse⟩

/-- Code-unit lexicographic comparison of character lists. -/
def strLeAux : List Char → List Char → Bool
  | [], _ => true
  | _ :: _, [] => false
  | a :: as, b :: bs =>
    if a.toNat < b.toNat then true
    else if b.toNat < a.toNat then false
    else strLeAux as bs

/-- Model of `a.localeCompare(b) <= 0`: code-unit lexicographic order (the
repository's names are ASCII, where the default collation agrees). -/
def strLeB (a b : String) : Bool := strLeAux a.data b.data

/-- Decimal rendering of an integer (for message strings only). -/
def intToStr (i : Int) : String := toString i

/-- Decimal rendering of a rational: exact for integers, `num/den`
otherwise.  Models JS number stringification only on the integral values
the repository's messages ever render; no claim depends on the rest. -/
def ratToStr (q : ℚ) : String :=
  if q.den = 1 then intToStr q.num else intToStr q.num ++ "/" ++ toString q.den

/-- String coercion of a scalar. -/
def jsAtomStr : JAtom → String
  | .nullv => "null"
  | .boolv b => if b then "true" else "false"
  | .num q => ratToStr q
  | .str s => s

/-- Model of JS `String(v)` string coercion on the values the core applies
it to (roles, statuses, names, ids in messages). -/
def jsToStr : JVal → String
  | .nullv => "null"
  | .boolv b => if b then "true" else "false"
  | .num q => ratToStr q
  | .str s => s
  | .arr xs => String.intercalate "," (xs.map jsAtomStr)

/-- Model of `String(s || "").trim().toUpperCase()` applied to a value that
is already a string (the `norm` helper of `scheduler.js` at its call
sites, where the argument is always a role string). -/
def normStr (s : String) : String := strUpper (strTrim s)

/-- Simple decimal parser: model of `Number.parseFloat` on the plain
decimal strings the repository's weekly-cap fields hold (`none` stands for
a NaN parse; exotic parseFloat inputs — leading garbage, exponents — do
not occur in the modelled fields and parse to `none`). -/
def parseDecDigits : List Char → Option ℕ
  | [] => none
  | cs =>
    if cs.all (fun c => 48 ≤ c.toNat ∧ c.toNat ≤ 57) then
      some (cs.foldl (fun acc c => acc * 10 + (c.toNat - 48)) 0)
    else none

/-- Parse an optional-sign decimal with an optional fractional part. -/
def parseDecString (s : String) : Option ℚ :=
  let cs := (strTrim s).data
  let (neg, cs) : Bool × List Char :=
    match cs with
    | '-' :: rest => (true, rest)
    | '+' :: rest => (false, rest)
    | _ => (false, cs)
  let intPart := cs.takeWhile (fun c => c ≠ '.')
  let rest := cs.dropWhile (fun c => c ≠ '.')
  match rest with
  | [] =>
    (parseDecDigits intPart).map fun n =>
      if neg then -(n : ℚ) else (n : ℚ)
  | _ :: frac =>
    match parseDecDigits intPart, parseDecDigits frac with
    | some n, some f =>
      let q : ℚ := (n : ℚ) + mkRat (f : Int) (10 ^ frac.length)
      some (if neg then -q else q)
    | _, _ => none

/-- Model of `Number.parseFloat(v)` on the record values the normalizer
feeds it; `none` models a NaN result. -/
def jsParseFloat : Option JVal → Option ℚ
  | some (.num q) => some q
  | some (.str s) => parseDecString s
  | _ => none

/-- Association list keyed by `JVal`: the model of a JS `Map`. -/
abbrev JMap (β : Type) := List (JVal × β)

/-- Model of `Map.get`. -/
def aGet {β : Type} : JMap β → JVal → Option β
  | [], _ => none
  | (k, v) :: t, k' => if k = k' then some v else aGet t k'

/-- Model of `Map.get(k) || d`-style defaulted lookup. -/
def aGetD {β : Type} (m : JMap β) (k : JVal) (d : β) : β := (aGet m k).getD d

/-- Model of `Map.set`: overwrite in place, else append (JS maps keep the
original insertion position of an overwritten key). -/
def aSet {β : Type} : JMap β → JVal → β → JMap β
  | [], k, v => [(k, v)]
  | (k₀, v₀) :: t, k, v =>
    if k₀ = k then (k₀, v) :: t else (k₀, v₀) :: aSet t k v

/-- Values of the map in insertion order (`Array.from(map.values())`). -/
def aValues {β : Type} (m : JMap β) : List β := m.map (·.2)

/-- An input record: its own fields, an optional nested field bag
(the Airtable "record with metadata + fields" shape), and the combined
parse results of its date/start/end fields (see the header: `combineDateTime`
is external parsing, so a record carries its outcome directly). -/
structure Rec where
  own : List (String × JVal) := []
  bag : Option (List (String × JVal)) := none
  startT : Option Int := none
  endT : Option Int := none
deriving DecidableEq, Repr

/-- First present key of an alias list in a plain object
(`hasOwnProperty` membership; a present key holding null is found). -/
def lookupObj : List (String × JVal) → List String → Option JVal
  | _, [] => none
  | o, k :: ks =>
    match o.find? (fun p => p.1 = k) with
    | some p => some p.2
    | none => lookupObj o ks

/-- Model of `readField(record, keys)` of `utils/data.js`: try each alias
against the record's own fields, then against its nested field bag. -/
def readField (r : Rec) (keys : List String) : Option JVal :=
  match lookupObj r.own keys with
  | some v => some v
  | none =>
    match r.bag with
    | some b => lookupObj b keys
    | none => none

/-- The object the availability/shift normalizers read most fields from:
`record.fields ? record.fields : record` (the bag when present, else the
record's own fields). -/
def fieldsOf (r : Rec) : List (String × JVal) :=
  match r.bag with
  | some b => b
  | none => r.own

/-! ## TimeMath (`src/server/utils/time.js`) -/

/-- MS_IN_HOUR of `time.js`. -/
def msInHour : Int := 60 * 60 * 1000

/-- MS_IN_DAY of `time.js`. -/
def msInDay : Int := 24 * msInHour

/-- Model of `normalizeRange(start, end)`: null/null when either endpoint
fails to parse (`none`), otherwise the overnight wraparound rule — an end
at or before the start is pushed one day later. -/
def normalizeRange (s e : Option Int) : Option Int × Option Int :=
  match s, e with
  | some sd, some ed =>
    if ed ≤ sd then (some sd, some (ed + msInDay)) else (some sd, some ed)
  | _, _ => (none, none)

/-- Model of `hoursBetween(start, end)`: duration of the normalized range
in hours, 0 when invalid.  Exact rational division stands for the JS float
division; the `Number.isFinite` guard of the source can only fire on float
infinities, which the model has none of. -/
def hoursBetween (s e : Option Int) : ℚ :=
  match normalizeRange s e with
  | (some a, some b) => mkRat (b - a) 3600000
  | _ => 0

/-- An occupied time block of an employee (`{start, end, shiftId}` as
pushed by the scheduler and the validator). -/
structure Block where
  start : Option Int
  endT : Option Int
  shiftId : JVal
deriving DecidableEq, Repr

/-- The per-block test of `overlaps` (the body of its `blocks.some`
closure, with `sb`/`eb` the candidate's normalized endpoints): the block
is re-normalized, the candidate's end is bumped one further day if still
inverted, a block still inverted after normalization never matches, and
otherwise half-open intersection `startA < endB && startB < endA` is
tested. -/
def blockOverlapCheck (sb eb : Int) (b : Block) : Bool :=
  match normalizeRange b.start b.endT with
  | (some sa, some ea) =>
    let ebAdj := if eb ≤ sb then eb + msInDay else eb
    if ea ≤ sa then false else decide (sa < ebAdj ∧ sb < ea)
  | _ => false

/-- Model of `overlaps(blocks, start, end)` of `time.js`. -/
def overlaps (blocks : List Block) (s e : Option Int) : Bool :=
  match normalizeRange s e with
  | (some sb, some eb) => blocks.any (blockOverlapCheck sb eb)
  | _ => false

/-! ## Normalizer (`src/server/utils/data.js`, recovered as part_005) -/

/-- DEFAULT_WEEKLY_CAP of `utils/data.js`. -/
def DEFAULT_WEEKLY_CAP : ℚ := mkRat 40 1

/-- A canonical employee. -/
structure Employee where
  id : JVal
  name : JVal
  role : String
  status : String
  weeklyCap : ℚ
deriving DecidableEq, Repr

/-- One record's step of `normalizeEmployees` (the body of its
`records.forEach`): id from a fixed alias list (a record lacking every
alias, or holding a falsy one, is skipped); role upper-cased, status
lower-cased defaulting to active; weekly cap parsed as a float with
non-finite or non-positive parses falling back to the default 40. -/
def employeeStep (m : JMap Employee) (r : Rec) : JMap Employee :=
  let id := (readField r ["id", "employee_id", "employeeId"]).getD .nullv
  if jsTruthy id then
    let roleV := (readField r ["role"]).getD .nullv
    let role := normStr (jsToStr (if jsTruthy roleV then roleV else .str ""))
    let statusV := (readField r ["status"]).getD .nullv
    let status :=
      strLower (strTrim (jsToStr (if jsTruthy statusV then statusV else .str "Active")))
    let capRaw := readField r ["weekly_cap", "weeklyCap", "Weekly Cap"]
    let cap :=
      match jsParseFloat capRaw with
      | some q => if 0 < q then q else DEFAULT_WEEKLY_CAP
      | none => DEFAULT_WEEKLY_CAP
    let nameV := (readField r ["name", "Name"]).getD .nullv
    let name := if jsTruthy nameV then nameV else .str ""
    aSet m id { id := id, name := name, role := role, status := status, weeklyCap := cap }
  else m

/-- Model of `normalizeEmployees`. -/
def normalizeEmployees (records : List Rec) : JMap Employee :=
  records.foldl employeeStep []

/-- A canonical availability window (times are non-null by construction:
a window whose combined range fails to normalize is dropped). -/
structure Window where
  start : Int
  endT : Int
  preferred : Bool
deriving DecidableEq, Repr

/-- Append a window to one employee's list, first-touch insertion order. -/
def aPush (m : JMap (List Window)) (k : JVal) (w : Window) : JMap (List Window) :=
  match m with
  | [] => [(k, [w])]
  | (k₀, ws) :: t =>
    if k₀ = k then (k₀, ws ++ [w]) :: t else (k₀, ws) :: aPush t k w

/-- The employee ids an availability record is indexed under: a single
truthy link value, or every truthy element of an array link. -/
def employeeIdsOf (v : Option JVal) : List JVal :=
  match v with
  | some (.arr xs) => (xs.filter JAtom.truthy).map JAtom.toJVal
  | some w => if jsTruthy w then [w] else []
  | none => []

/-- One record's step of `normalizeAvailability` (the body of its
`records.forEach`): link field may hold one id or many; "unavailable"
windows are dropped; a window whose combined start or end fails to
normalize is dropped entirely; "preferred" sets the preference flag.
(The unused `recordId` decoration of the source is omitted: nothing
downstream reads it.) -/
def availabilityStep (m : JMap (List Window)) (r : Rec) : JMap (List Window) :=
  let fields := fieldsOf r
  let employeeField :=
    lookupObj fields ["employee_id", "employee", "Employee", "employees", "Employee ID"]
  let ids := employeeIdsOf employeeField
  if ids = [] then m
  else
    let typeV := (lookupObj fields ["type", "Type"]).getD .nullv
    let type :=
      strLower (strTrim (jsToStr (if jsTruthy typeV then typeV else .str "Available")))
    if type = "unavailable" then m
    else
      match normalizeRange r.startT r.endT with
      | (some a, some b) =>
        ids.foldl (fun acc id => aPush acc id ⟨a, b, type = "preferred"⟩) m
      | _ => m

/-- Model of `normalizeAvailability`. -/
def normalizeAvailability (records : List Rec) : JMap (List Window) :=
  records.foldl availabilityStep []

/-- A canonical shift.  (The `fields` decoration the source keeps on the
normalized shift is omitted: the scheduler and validator never read it.) -/
structure Shift where
  id : JVal
  roleNeeded : String
  start : Option Int
  endT : Option Int
  hours : ℚ
deriving DecidableEq, Repr

/-- Model of one record's normalization in `normalizeShiftRecords`
(`null` for a record with no truthy id alias). -/
def mkShift (r : Rec) : Option Shift :=
  let id := (readField r ["id", "shift_id", "Shift Id", "shiftId"]).getD .nullv
  if jsTruthy id then
    let fields := fieldsOf r
    let roleV := (lookupObj fields ["role_needed", "role", "Role"]).getD .nullv
    let role0 := normStr (jsToStr (if jsTruthy roleV then roleV else .str "Either"))
    let roleNeeded := if role0 = "EITHER" then "" else role0
    let range := normalizeRange r.startT r.endT
    some
      { id := id, roleNeeded := roleNeeded, start := range.1, endT := range.2,
        hours := hoursBetween range.1 range.2 }
  else none

/-- Model of `normalizeShiftRecords` (`.map(...).filter(Boolean)`). -/
def normalizeShiftRecords (records : List Rec) : List Shift :=
  records.filterMap mkShift

/-- Model of `roleMatches` of `utils/data.js` — the role matcher the
source comments as "used by scheduler and validator": empty requirement
matches any role, exact match, or the composite CNA_OR_CMA token. -/
def roleMatches (empRole roleNeeded : String) : Bool :=
  let e := normStr empRole
  let r := normStr roleNeeded
  if r = "" then true
  else if e = r then true
  else if r = "CNA_OR_CMA" then e = "CNA" || e = "CMA"
  else false

/-- The existing-assignment input: a list of records or a shiftId→employeeId
object (the two shapes `normalizeAssignments` accepts). -/
inductive AssignInput where
  | arrI (rs : List Rec) : AssignInput
  | objI (o : List (String × JVal)) : AssignInput

/-- Model of `normalizeAssignments`: both shapes normalize into one
shiftId→employeeId map; entries missing either half are dropped. -/
def normalizeAssignments : AssignInput → JMap JVal
  | .arrI rs =>
    rs.foldl
      (fun m r =>
        let shiftId := (readField r ["shift_id", "shiftId", "id"]).getD .nullv
        let employeeId :=
          (readField r ["employee_id", "employeeId", "assigned_employee"]).getD .nullv
        if jsTruthy shiftId ∧ jsTruthy employeeId then aSet m shiftId employeeId else m)
      []
  | .objI o =>
    o.foldl
      (fun m p =>
        if p.1 ≠ "" ∧ jsTruthy p.2 then aSet m (.str p.1) p.2 else m)
      []

/-! ## Scheduler (`src/server/scheduler.js`) -/

/-- Model of the local `accepts(empRole, roleNeeded)` helper of
`scheduler.js`: exact normalized match, or the composite CNA_OR_CMA token.
(Note it has no empty-requirement case — compare `roleMatches`.) -/
def accepts (empRole roleNeeded : String) : Bool :=
  let e := normStr empRole
  let r := normStr roleNeeded
  if e = r then true
  else if r = "CNA_OR_CMA" then e = "CNA" || e = "CMA"
  else false

/-- Result of `coverageForShift`: `{available, preferred}`. -/
structure Coverage where
  available : Bool
  preferred : Bool
deriving DecidableEq, Repr

/-- Model of `coverageForShift(windows, shiftStart, shiftEnd)`: a window
covers when it fully contains the shift interval (whose end is bumped one
day when at or before its start); `preferred` records a covering window
marked preferred. -/
def coverageForShift (windows : List Window) (s e : Option Int) : Coverage :=
  match s, e with
  | some ss, some se0 =>
    let se := if se0 ≤ ss then se0 + msInDay else se0
    windows.foldl
      (fun acc w =>
        if w.start ≤ ss ∧ se ≤ w.endT then
          ⟨true, acc.preferred || w.preferred⟩
        else acc)
      ⟨false, false⟩
  | _, _ => ⟨false, false⟩

/-- One entry of the scheduler's output assignment list: `employeeId` is
`none` for JS null (unfilled), `reason` present only on unfilled entries. -/
structure Assignment where
  shiftId : JVal
  employeeId : Option JVal
  reason : Option String
deriving DecidableEq, Repr

/-- One entry of the scheduler's issue list. -/
structure Issue where
  shiftId : JVal
  employeeId : Option JVal
  reason : String
deriving DecidableEq, Repr

/-- The running state of one scheduling pass: output accumulators plus
cumulative hours and occupied blocks per employee. -/
structure SchedState where
  assignments : List Assignment
  issues : List Issue
  totals : JMap ℚ
  blocks : JMap (List Block)
deriving DecidableEq, Repr

/-- Model of `totals.get(id) || 0`. -/
def totalsGet (st : SchedState) (id : JVal) : ℚ := aGetD st.totals id (mkRat 0 1)

/-- Model of `blocks.get(id) || []` (and of `blocks.get(id)` fed to
`overlaps`, which treats a missing list exactly as an empty one). -/
def blocksGet (st : SchedState) (id : JVal) : List Block := aGetD st.blocks id []

/-- Model of `trackAssignment(employeeId, shift)`: add the shift's hours to
the employee's total and push the occupied block.  (`shift.hours || 0` is
`shift.hours` in the exact model: the guard only rewrites NaN/0 to 0.) -/
def trackAssignment (st : SchedState) (eid : JVal) (sh : Shift) : SchedState :=
  { st with
    totals := aSet st.totals eid (totalsGet st eid + sh.hours),
    blocks := aSet st.blocks eid (blocksGet st eid ++ [⟨sh.start, sh.endT, sh.id⟩]) }

/-- Push an unfilled assignment and the matching issue. -/
def pushUnfilled (st : SchedState) (sh : Shift) (reason : String) : SchedState :=
  { st with
    assignments := st.assignments ++ [⟨sh.id, none, some reason⟩],
    issues := st.issues ++ [⟨sh.id, none, reason⟩] }

/-- Commit a shift to an employee: push the filled assignment (no reason
field) and update the running state. -/
def commit (st : SchedState) (sh : Shift) (eid : JVal) : SchedState :=
  trackAssignment
    { st with assignments := st.assignments ++ [⟨sh.id, some eid, none⟩] } eid sh

/-- Reason string of the missing-time branch. -/
def missingTimeReason : String := "Shift is missing start or end time."

/-- Reason string of the empty-candidate-pool branch. -/
def noRoleReason (needed : String) : String :=
  "No employees available for role " ++ (if needed = "" then "Either" else needed) ++ "."

/-- Reason string of the empty-coverage branch. -/
def noWindowReason : String := "No employees are available during the shift window."

/-- Reason string of the cap-exhaustion branch. -/
def capReason : String := "All available employees would exceed their weekly cap."

/-- Reason string of the conflict-exhaustion branch. -/
def conflictReason : String := "All available employees have conflicting assignments."

/-- Issue text for a released existing assignment. -/
def releasedReason : String :=
  "Existing assignment violates scheduling rules and was released."

/-- The scheduler's step-3 candidate pool: active employees whose role the
local `accepts` matches, in employee-map insertion order. -/
def activeEmployeesFor (emap : JMap Employee) (needed : String) : List Employee :=
  (aValues emap).filter fun emp => emp.status = "active" && accepts emp.role needed

/-- A pool entry: an employee with the coverage computed for this shift. -/
structure Cand where
  employee : Employee
  covAvail : Bool
  covPref : Bool
deriving DecidableEq, Repr

/-- Step-4 pool: candidates with a fully covering availability window. -/
def availabilityCandidates (amap : JMap (List Window)) (pool : List Employee)
    (sh : Shift) : List Cand :=
  (pool.map fun emp =>
      let cov := coverageForShift (aGetD amap emp.id []) sh.start sh.endT
      Cand.mk emp cov.available cov.preferred).filter
    (·.covAvail)

/-- Step-5 pool: candidates whose cumulative hours plus this shift's
duration stay at or below their weekly cap. -/
def withinCapPool (st : SchedState) (pool : List Cand) (sh : Shift) : List Cand :=
  pool.filter fun c =>
    decide (totalsGet st c.employee.id + sh.hours ≤ c.employee.weeklyCap)

/-- Step-6 pool: candidates none of whose occupied blocks overlaps the
shift. -/
def conflictFreePool (st : SchedState) (pool : List Cand) (sh : Shift) : List Cand :=
  pool.filter fun c => !(overlaps (blocksGet st c.employee.id) sh.start sh.endT)

/-- The name key the comparator's final tie-break compares:
`(employee.name || "")` after string coercion.  The coercion here is
total; in the source the receiver of `.localeCompare` is the raw
`name || ""` value, and when that is a truthy non-string the method call
throws — an error path this total model collapses and
`nameTieBreakThrows` below carries. -/
def nameKey (c : Cand) : String :=
  jsToStr (if jsTruthy c.employee.name then c.employee.name else .str "")

/-- Dispatch model of the comparator's final tie-break receiver: the
source evaluates `(a.employee.name || "").localeCompare(...)`; only
strings have a `localeCompare` method (a falsy name is replaced by the
string ""), so the call throws TypeError exactly when the name is a
truthy non-string value. -/
def nameTieBreakThrows (c : Cand) : Bool :=
  match c.employee.name with
  | .str _ => false
  | v => jsTruthy v

/-- The comparator reaches its final (name) tie-break for a pair exactly
when the earlier stages all tie: equal preferred flags, equal cumulative
hours, equal committed-assignment counts. -/
def comparatorReachesNameStep (st : SchedState) (a b : Cand) : Bool :=
  (a.covPref == b.covPref)
    && decide (totalsGet st a.employee.id = totalsGet st b.employee.id)
    && decide ((blocksGet st a.employee.id).length = (blocksGet st b.employee.id).length)

/-- Model of `comparator(a, b) <= 0` for the scheduler's sort comparator:
preferred coverage first, then lower cumulative hours, then fewer
committed assignments, then the smaller name. -/
def candLe (st : SchedState) (a b : Cand) : Bool :=
  if a.covPref ≠ b.covPref then a.covPref
  else
    let hA := totalsGet st a.employee.id
    let hB := totalsGet st b.employee.id
    if hA ≠ hB then decide (hA < hB)
    else
      let cA := (blocksGet st a.employee.id).length
      let cB := (blocksGet st b.employee.id).length
      if cA ≠ cB then decide (cA < cB)
      else strLeB (nameKey a) (nameKey b)

/-- The sorted surviving pool (stable sort by the comparator; see the
header note on `Array.prototype.sort`). -/
def sortedPool (st : SchedState) (pool : List Cand) : List Cand :=
  List.insertionSort (fun a b => candLe st a b = true) pool

/-- Steps 3–7 of one shift (the fall-through path after the existing
assignment, if any, was released): filter the pools in order, emit the
matching unfilled reason when one empties, otherwise commit the first
candidate of the sorted pool. -/
def freshAssign (emap : JMap Employee) (amap : JMap (List Window)) (st : SchedState)
    (sh : Shift) (needed : String) : SchedState :=
  let pool1 := activeEmployeesFor emap needed
  if pool1 = [] then pushUnfilled st sh (noRoleReason needed)
  else
    let pool2 := availabilityCandidates amap pool1 sh
    if pool2 = [] then pushUnfilled st sh noWindowReason
    else
      let pool3 := withinCapPool st pool2 sh
      if pool3 = [] then pushUnfilled st sh capReason
      else
        let pool4 := conflictFreePool st pool3 sh
        if pool4 = [] then pushUnfilled st sh conflictReason
        else
          match sortedPool st pool4 with
          | [] => st
          | c :: _ => commit st sh c.employee.id

/-- Model of the body of the scheduler's per-shift loop
(`shifts.forEach(...)` in `schedule`): missing-time check, then the
existing-assignment attempt, then the fresh-assignment pass. -/
def processShift (emap : JMap Employee) (amap : JMap (List Window)) (exmap : JMap JVal)
    (st : SchedState) (sh : Shift) : SchedState :=
  if sh.start = none ∨ sh.endT = none then
    pushUnfilled st sh missingTimeReason
  else
    let needed := normStr sh.roleNeeded
    match aGet exmap sh.id with
    | some eid =>
      if jsTruthy eid then
        let cov := coverageForShift (aGetD amap eid []) sh.start sh.endT
        let currentHours := totalsGet st eid
        let canAssign :=
          match aGet emap eid with
          | some emp =>
            emp.status = "active" && accepts emp.role needed && cov.available
              && decide (currentHours + sh.hours ≤ emp.weeklyCap)
              && !(overlaps (blocksGet st eid) sh.start sh.endT)
          | none => false
        if canAssign then commit st sh eid
        else
          freshAssign emap amap
            { st with issues := st.issues ++ [⟨sh.id, some eid, releasedReason⟩] }
            sh needed
      else freshAssign emap amap st sh needed
    | none => freshAssign emap amap st sh needed

/-- The empty running state. -/
def initState : SchedState := ⟨[], [], [], []⟩

/-- One full pass over the normalized shifts. -/
def runShifts (emap : JMap Employee) (amap : JMap (List Window)) (exmap : JMap JVal)
    (shifts : List Shift) : SchedState :=
  shifts.foldl (processShift emap amap exmap) initState

/-- Model of `Number(x.toFixed(2))`: exact rounding to two decimals. -/
def round2 (q : ℚ) : ℚ :=
  mkRat (Int.fdiv (2 * (q.num * 100) + (q.den : ℤ)) (2 * (q.den : ℤ))) 100

/-- One row of the totals summary. -/
structure EmployeeSummary where
  employeeId : JVal
  name : JVal
  role : String
  weeklyCap : ℚ
  hours : ℚ
  assignments : ℕ
deriving DecidableEq, Repr

/-- Model of `summarizeTotals`: one row per known employee, including
employees with no assignment. -/
def summarizeTotals (emap : JMap Employee) (totals : JMap ℚ) (blocks : JMap (List Block)) :
    JMap EmployeeSummary :=
  emap.map fun p =>
    (p.1,
      { employeeId := p.1, name := p.2.name, role := p.2.role,
        weeklyCap := p.2.weeklyCap,
        hours := round2 (aGetD totals p.1 (mkRat 0 1)),
        assignments := (aGetD blocks p.1 []).length })

/-- The scheduler's result record. -/
structure SchedResult where
  assignments : List Assignment
  issues : List Issue
  totalsByEmployee : JMap EmployeeSummary
deriving DecidableEq, Repr

/-- Model of `schedule(shiftTemplate, employees, availability,
existingAssignments)`. -/
def schedule (shiftTemplate employees availability : List Rec)
    (existingAssignments : AssignInput) : SchedResult :=
  let emap := normalizeEmployees employees
  let amap := normalizeAvailability availability
  let shifts := normalizeShiftRecords shiftTemplate
  let exmap := normalizeAssignments existingAssignments
  let st := runShifts emap amap exmap shifts
  ⟨st.assignments, st.issues, summarizeTotals emap st.totals st.blocks⟩

/-! ## Validator (`src/unnamed/part_004`) -/

/-- A typed validation error. -/
structure VError where
  etype : String
  shiftId : Option JVal
  employeeId : Option JVal
  message : String
deriving DecidableEq, Repr

/-- The template-literal name of an employee: `employee.name ||
employeeId`, string-coerced. -/
def nameOr (emp : Employee) (eid : JVal) : String :=
  jsToStr (if jsTruthy emp.name then emp.name else eid)

/-- Fixed two-decimal rendering (model of `hours.toFixed(2)` in the
weekly-cap message). -/
def fixed2Str (q : ℚ) : String :=
  let n : Int := Int.fdiv (2 * (q.num * 100) + (q.den : ℤ)) (2 * (q.den : ℤ))
  let sign := if n < 0 then "-" else ""
  let m := n.natAbs
  sign ++ toString (m / 100) ++ "."
    ++ (if m % 100 < 10 then "0" ++ toString (m % 100) else toString (m % 100))

/-- The per-assignment accumulator of `validate`. -/
structure VState where
  errors : List VError
  hoursBy : JMap ℚ
  blocksBy : JMap (List Block)
deriving DecidableEq, Repr

/-- Model of the body of the validator's per-assignment loop: skip when
either id is falsy; missing_shift / missing_employee short-circuit;
inactive, role (against the raw `!== "EITHER"` sentinel of the source) and
coverage checks; then accumulate hours and blocks.  (Assignments are typed
as the scheduler's output records; the source's `shiftId || shift_id`
alias fallback only concerns snake_case external inputs, which every claim
about the validator feeds in the camelCase shape.) -/
def processAssignment (shiftMap : JMap Shift) (emap : JMap Employee)
    (amap : JMap (List Window)) (vs : VState) (a : Assignment) : VState :=
  let sid := a.shiftId
  let eid := a.employeeId.getD .nullv
  if ¬ jsTruthy sid ∨ ¬ jsTruthy eid then vs
  else
    match aGet shiftMap sid with
    | none =>
      { vs with
        errors := vs.errors ++
          [⟨"missing_shift", some sid, some eid,
            "Shift " ++ jsToStr sid ++ " referenced by assignment was not provided."⟩] }
    | some sh =>
      match aGet emap eid with
      | none =>
        { vs with
          errors := vs.errors ++
            [⟨"missing_employee", some sid, some eid,
              "Employee " ++ jsToStr eid ++ " referenced by assignment was not provided."⟩] }
      | some emp =>
        let e1 : List VError :=
          if emp.status ≠ "active" then
            [⟨"inactive_employee", some sid, some eid, nameOr emp eid ++ " is not active."⟩]
          else []
        let e2 : List VError :=
          if sh.roleNeeded ≠ "EITHER" ∧ emp.role ≠ sh.roleNeeded then
            [⟨"role_mismatch", some sid, some eid,
              nameOr emp eid ++ " does not match required role " ++ sh.roleNeeded ++ "."⟩]
          else []
        let windows := aGetD amap eid []
        let hasCoverage := windows.any fun w =>
          match sh.start, sh.endT with
          | some ss, some se0 =>
            let se := if se0 ≤ ss then se0 + msInDay else se0
            decide (w.start ≤ ss ∧ se ≤ w.endT)
          | _, _ => false
        let e3 : List VError :=
          if ¬ hasCoverage then
            [⟨"availability", some sid, some eid,
              nameOr emp eid ++ " is not available for shift " ++ jsToStr sid ++ "."⟩]
          else []
        { errors := vs.errors ++ e1 ++ e2 ++ e3,
          hoursBy := aSet vs.hoursBy eid (aGetD vs.hoursBy eid (mkRat 0 1) + sh.hours),
          blocksBy := aSet vs.blocksBy eid (aGetD vs.blocksBy eid [] ++ [⟨sh.start, sh.endT, sid⟩]) }

/-- The pairwise overlap errors of one employee's block list, in the
source's double-loop order (`employee ? employee.name : employeeId` in the
message). -/
def pairOverlapErrors (emap : JMap Employee) (eid : JVal) : List Block → List VError
  | [] => []
  | b :: rest =>
    ((rest.filter fun b2 => overlaps [b] b2.start b2.endT).map fun b2 =>
      ⟨"overlap",
        some (.str (jsToStr b.shiftId ++ "," ++ jsToStr b2.shiftId)), some eid,
        (match aGet emap eid with
         | some emp => jsToStr emp.name
         | none => jsToStr eid)
          ++ " has overlapping shifts " ++ jsToStr b.shiftId ++ " and "
          ++ jsToStr b2.shiftId ++ "."⟩)
      ++ pairOverlapErrors emap eid rest

/-- Model of `validate(assignments, shifts, employees, availability)`:
canonical entities are re-derived from scratch, each assignment is checked
(per-assignment errors in input order), then the weekly-cap pass over the
accumulated hours and the pairwise-overlap pass over the accumulated
blocks. -/
def validate (assignments : List Assignment) (shifts employees availability : List Rec) :
    List VError :=
  let emap := normalizeEmployees employees
  let amap := normalizeAvailability availability
  let shiftMap := (normalizeShiftRecords shifts).foldl (fun m sh => aSet m sh.id sh) []
  let vs := assignments.foldl (processAssignment shiftMap emap amap) ⟨[], [], []⟩
  vs.errors
    ++ vs.hoursBy.foldl
        (fun es p =>
          match aGet emap p.1 with
          | some emp =>
            if p.2 > emp.weeklyCap then
              es ++
                [⟨"weekly_cap", none, some p.1,
                  nameOr emp p.1 ++ " exceeds weekly cap (" ++ fixed2Str p.2 ++ " > "
                    ++ ratToStr emp.weeklyCap ++ ")."⟩]
            else es
          | none => es)
        []
    ++ vs.blocksBy.foldl (fun es p => es ++ pairOverlapErrors emap p.1 p.2) []

/-! ## Basic lemmas about the map model -/

theorem aGet_aSet_self {β : Type} (m : JMap β) (k : JVal) (v : β) :
    aGet (aSet m k v) k = some v := by
  induction m with
  | nil => simp [aSet, aGet]
  | cons p t ih =>
    by_cases h : p.1 = k
    · simp [aSet, h, aGet]
    · simp [aSet, h, aGet, ih]

theorem aGet_aSet_ne {β : Type} (m : JMap β) (k : JVal) (v : β) (k' : JVal)
    (h : k ≠ k') : aGet (aSet m k v) k' = aGet m k' := by
  induction m with
  | nil => simp [aSet, aGet, h]
  | cons p t ih =>
    by_cases hp : p.1 = k
    · subst hp; simp [aSet, aGet, h, ih]
    · simp [aSet, hp, aGet, ih]

theorem mem_aSet {β : Type} {m : JMap β} {k : JVal} {v : β} {p : JVal × β}
    (h : p ∈ aSet m k v) : p = (k, v) ∨ p ∈ m := by
  induction m with
  | nil => simpa [aSet] using h
  | cons q t ih =>
    by_cases hq : q.1 = k
    · simp only [aSet, if_pos hq, List.mem_cons] at h
      rcases h with h | h
      · left; rw [h, ← hq]
      · right; exact List.mem_cons_of_mem _ h
    · simp only [aSet, if_neg hq, List.mem_cons] at h
      rcases h with h | h
      · right; exact h ▸ List.mem_cons_self _ _
      · rcases ih h with h' | h'
        · exact Or.inl h'
        · exact Or.inr (List.mem_cons_of_mem _ h')

theorem keys_mem_aSet {β : Type} {m : JMap β} {k : JVal} {v : β} {x : JVal}
    (h : x ∈ (aSet m k v).map Prod.fst) : x ∈ m.map Prod.fst ∨ x = k := by
  rcases List.mem_map.mp h with ⟨p, hp, rfl⟩
  rcases mem_aSet hp with h' | h'
  · right; rw [h']
  · left; exact List.mem_map_of_mem _ h'

theorem nodupKeys_aSet {β : Type} {m : JMap β} (k : JVal) (v : β)
    (h : (m.map Prod.fst).Nodup) : ((aSet m k v).map Prod.fst).Nodup := by
  induction m with
  | nil => simp [aSet]
  | cons p t ih =>
    obtain ⟨k0, v0⟩ := p
    by_cases hp : k0 = k
    · simpa [aSet, hp] using h
    · simp only [List.map_cons, List.nodup_cons] at h
      simp only [aSet, if_neg hp, List.map_cons, List.nodup_cons]
      refine ⟨?_, ih h.2⟩
      intro hmem
      rcases keys_mem_aSet hmem with h' | h'
      · exact h.1 h'
      · exact hp h'

theorem mem_of_aGet {β : Type} {m : JMap β} {k : JVal} {v : β}
    (h : aGet m k = some v) : (k, v) ∈ m := by
  induction m with
  | nil => simp [aGet] at h
  | cons p t ih =>
    obtain ⟨k0, v0⟩ := p
    by_cases hp : k0 = k
    · simp only [aGet, if_pos hp] at h
      cases h
      subst hp
      exact List.mem_cons_self _ _
    · simp only [aGet, if_neg hp] at h
      exact List.mem_cons_of_mem _ (ih h)

theorem aGet_of_mem_nodup {β : Type} {m : JMap β} {k : JVal} {v : β}
    (hnd : (m.map Prod.fst).Nodup) (h : (k, v) ∈ m) : aGet m k = some v := by
  induction m with
  | nil => simp at h
  | cons p t ih =>
    obtain ⟨k0, v0⟩ := p
    simp only [List.map_cons, List.nodup_cons] at hnd
    rcases List.mem_cons.mp h with h | h
    · injection h with h1 h2
      subst h1; subst h2
      simp [aGet]
    · have hk : k ∈ t.map Prod.fst := List.mem_map_of_mem Prod.fst h
      have hp : k0 ≠ k := fun he => hnd.1 (he ▸ hk)
      simp only [aGet, if_neg hp]
      exact ih hnd.2 h

theorem mem_values_iff {β : Type} {m : JMap β} {v : β} :
    v ∈ aValues m ↔ ∃ k, (k, v) ∈ m := by
  constructor
  · intro h
    rcases List.mem_map.mp h with ⟨p, hp, rfl⟩
    exact ⟨p.1, hp⟩
  · rintro ⟨k, hk⟩
    exact List.mem_map.mpr ⟨(k, v), hk, rfl⟩

/-! ## C7 — `normalizeRange` -/

/-- C7: for every pair of inputs, `normalizeRange` returns null/null when
either endpoint fails to parse; when both parse and the end is at or
before the start it returns the start unchanged with the end shifted
forward by exactly 24 hours (86 400 000 ms); otherwise it returns both
endpoints unchanged. -/
theorem normalizeRange_overnight_spec :
    (∀ s e : Option Int, s = none ∨ e = none → normalizeRange s e = (none, none)) ∧
    (∀ sv ev : Int, ev ≤ sv →
      normalizeRange (some sv) (some ev) = (some sv, some (ev + 24 * 60 * 60 * 1000))) ∧
    (∀ sv ev : Int, sv < ev → normalizeRange (some sv) (some ev) = (some sv, some ev)) := by
  refine ⟨?_, ?_, ?_⟩
  · rintro s e (rfl | rfl)
    · cases e <;> rfl
    · cases s <;> rfl
  · intro sv ev h
    simp only [normalizeRange, if_pos h]
    norm_num [msInDay, msInHour]
  · intro sv ev h
    simp [normalizeRange, not_le.mpr h]

/-! ## C8 — `overlaps` -/

/-- C8: `overlaps` is true exactly when the candidate parses and some
block's re-normalized range is well formed (start strictly before end)
and strictly intersects, half-open, the candidate's normalized range with
the overnight bump re-applied to its end; in particular a malformed block
(end at or before start even after normalization) never contributes, and
an unparsable candidate yields false against every block list. -/
theorem overlaps_halfopen_spec :
    (∀ (blocks : List Block) (s e : Option Int),
      overlaps blocks s e = true ↔
        ∃ cs ce, normalizeRange s e = (some cs, some ce) ∧
          ∃ b ∈ blocks, ∃ bs be,
            normalizeRange b.start b.endT = (some bs, some be) ∧ bs < be ∧
            bs < (if ce ≤ cs then ce + msInDay else ce) ∧ cs < be) ∧
    (∀ (blocks : List Block) (e : Option Int), overlaps blocks none e = false) ∧
    (∀ (blocks : List Block) (s : Option Int), overlaps blocks s none = false) := by
  have hnone : ∀ (blocks : List Block) (s e : Option Int),
      normalizeRange s e = (none, none) → overlaps blocks s e = false := by
    intro blocks s e h
    unfold overlaps
    rw [h]
  have hblock : ∀ (sb eb : Int) (b : Block),
      blockOverlapCheck sb eb b = true ↔
        ∃ bs be, normalizeRange b.start b.endT = (some bs, some be) ∧ bs < be ∧
          bs < (if eb ≤ sb then eb + msInDay else eb) ∧ sb < be := by
    intro sb eb b
    unfold blockOverlapCheck
    rcases hb : normalizeRange b.start b.endT with ⟨bs?, be?⟩
    rcases bs? with _ | bs <;> rcases be? with _ | be <;> simp only
    · constructor
      · intro h; cases h
      · rintro ⟨bs, be, hbe, -⟩; cases hbe
    · constructor
      · intro h; cases h
      · rintro ⟨bs, be, hbe, -⟩; cases hbe
    · constructor
      · intro h; cases h
      · rintro ⟨bs, be, hbe, -⟩; cases hbe
    · by_cases hmal : be ≤ bs
      · simp only [if_pos hmal]
        constructor
        · intro h; cases h
        · rintro ⟨bs', be', hbe, hlt, -⟩
          injection hbe with h1 h2
          injection h1 with h1; injection h2 with h2
          subst h1; subst h2
          exact absurd hlt (not_lt.mpr hmal)
      · simp only [if_neg hmal, decide_eq_true_eq]
        constructor
        · rintro ⟨h1, h2⟩
          exact ⟨bs, be, rfl, lt_of_not_le hmal, h1, h2⟩
        · rintro ⟨bs', be', hbe, hlt, h1, h2⟩
          injection hbe with ha hb'
          injection ha with ha; injection hb' with hb'
          subst ha; subst hb'
          exact ⟨h1, h2⟩
  refine ⟨?_, ?_, ?_⟩
  · intro blocks s e
    rcases hc : normalizeRange s e with ⟨cs?, ce?⟩
    have hover : overlaps blocks s e =
        (match (cs?, ce?) with
          | (some sb, some eb) => blocks.any (blockOverlapCheck sb eb)
          | _ => false) := by
      unfold overlaps
      rw [hc]
    rcases cs? with _ | cs <;> rcases ce? with _ | ce
    · simp only [hover]
      constructor
      · intro h; cases h
      · rintro ⟨cs, ce, hce, -⟩; simp at hce
    · simp only [hover]
      constructor
      · intro h; cases h
      · rintro ⟨cs, ce, hce, -⟩; simp at hce
    · simp only [hover]
      constructor
      · intro h; cases h
      · rintro ⟨cs, ce, hce, -⟩; simp at hce
    · simp only [hover, List.any_eq_true]
      constructor
      · rintro ⟨b, hb, hcheck⟩
        exact ⟨cs, ce, rfl, b, hb, (hblock cs ce b).mp hcheck⟩
      · rintro ⟨cs', ce', hce, b, hb, hrest⟩
        injection hce with h1 h2
        injection h1 with h1; injection h2 with h2
        subst h1; subst h2
        exact ⟨b, hb, (hblock cs ce b).mpr hrest⟩
  · intro blocks e
    exact hnone blocks none e (by cases e <;> rfl)
  · intro blocks s
    rcases s with _ | sv
    · exact hnone blocks none none rfl
    · exact hnone blocks (some sv) none rfl

/-! ## State-update lemmas for the scheduler -/

theorem pushUnfilled_totals (st : SchedState) (sh : Shift) (r : String) :
    (pushUnfilled st sh r).totals = st.totals := rfl

theorem pushUnfilled_blocks (st : SchedState) (sh : Shift) (r : String) :
    (pushUnfilled st sh r).blocks = st.blocks := rfl

theorem pushUnfilled_assignments (st : SchedState) (sh : Shift) (r : String) :
    (pushUnfilled st sh r).assignments = st.assignments ++ [⟨sh.id, none, some r⟩] := rfl

theorem commit_assignments (st : SchedState) (sh : Shift) (eid : JVal) :
    (commit st sh eid).assignments = st.assignments ++ [⟨sh.id, some eid, none⟩] := rfl

theorem commit_totals (st : SchedState) (sh : Shift) (eid : JVal) :
    (commit st sh eid).totals = aSet st.totals eid (totalsGet st eid + sh.hours) := rfl

theorem commit_blocks (st : SchedState) (sh : Shift) (eid : JVal) :
    (commit st sh eid).blocks
      = aSet st.blocks eid (blocksGet st eid ++ [⟨sh.start, sh.endT, sh.id⟩]) := rfl

theorem totalsGet_commit_self (st : SchedState) (sh : Shift) (eid : JVal) :
    totalsGet (commit st sh eid) eid = totalsGet st eid + sh.hours := by
  simp [totalsGet, aGetD, commit_totals, aGet_aSet_self]

theorem totalsGet_commit_ne (st : SchedState) (sh : Shift) (eid id : JVal) (h : eid ≠ id) :
    totalsGet (commit st sh eid) id = totalsGet st id := by
  simp [totalsGet, aGetD, commit_totals, aGet_aSet_ne _ _ _ _ h]

theorem blocksGet_commit_self (st : SchedState) (sh : Shift) (eid : JVal) :
    blocksGet (commit st sh eid) eid = blocksGet st eid ++ [⟨sh.start, sh.endT, sh.id⟩] := by
  simp [blocksGet, aGetD, commit_blocks, aGet_aSet_self]

theorem blocksGet_commit_ne (st : SchedState) (sh : Shift) (eid id : JVal) (h : eid ≠ id) :
    blocksGet (commit st sh eid) id = blocksGet st id := by
  simp [blocksGet, aGetD, commit_blocks, aGet_aSet_ne _ _ _ _ h]

theorem sortedPool_perm (st : SchedState) (pool : List Cand) :
    (sortedPool st pool).Perm pool :=
  List.perm_insertionSort _ pool

/-- Every way one shift's fresh pass can end: an unfilled push, or a
commit of some member of the conflict-free pool. -/
theorem freshAssign_cases (emap : JMap Employee) (amap : JMap (List Window))
    (st : SchedState) (sh : Shift) (needed : String) :
    (∃ r, freshAssign emap amap st sh needed = pushUnfilled st sh r) ∨
    (∃ c, c ∈ conflictFreePool st
        (withinCapPool st
          (availabilityCandidates amap (activeEmployeesFor emap needed) sh) sh) sh ∧
      freshAssign emap amap st sh needed = commit st sh c.employee.id) := by
  by_cases h1 : activeEmployeesFor emap needed = []
  · exact Or.inl ⟨noRoleReason needed, by simp [freshAssign, h1]⟩
  · by_cases h2 : availabilityCandidates amap (activeEmployeesFor emap needed) sh = []
    · exact Or.inl ⟨noWindowReason, by simp [freshAssign, h1, h2]⟩
    · by_cases h3 : withinCapPool st
          (availabilityCandidates amap (activeEmployeesFor emap needed) sh) sh = []
      · exact Or.inl ⟨capReason, by simp [freshAssign, h1, h2, h3]⟩
      · by_cases h4 : conflictFreePool st (withinCapPool st
            (availabilityCandidates amap (activeEmployeesFor emap needed) sh) sh) sh = []
        · exact Or.inl ⟨conflictReason, by simp [freshAssign, h1, h2, h3, h4]⟩
        · rcases hs : sortedPool st (conflictFreePool st (withinCapPool st
              (availabilityCandidates amap (activeEmployeesFor emap needed) sh) sh) sh)
            with _ | ⟨c, rest⟩
          · exfalso
            apply h4
            have := (sortedPool_perm st (conflictFreePool st (withinCapPool st
              (availabilityCandidates amap (activeEmployeesFor emap needed) sh) sh) sh)).length_eq
            rw [hs] at this
            exact List.length_eq_zero.mp this.symm
          · refine Or.inr ⟨c, ?_, ?_⟩
            · have hc : c ∈ sortedPool st (conflictFreePool st (withinCapPool st
                  (availabilityCandidates amap (activeEmployeesFor emap needed) sh) sh) sh) := by
                rw [hs]; exact List.mem_cons_self _ _
              exact (sortedPool_perm st _).mem_iff.mp hc
            · simp [freshAssign, h1, h2, h3, h4, hs]

/-- The fresh pass appends exactly one assignment entry for the shift. -/
theorem freshAssign_assignments (emap : JMap Employee) (amap : JMap (List Window))
    (st : SchedState) (sh : Shift) (needed : String) :
    ∃ a : Assignment, (freshAssign emap amap st sh needed).assignments
      = st.assignments ++ [a] ∧ a.shiftId = sh.id := by
  rcases freshAssign_cases emap amap st sh needed with ⟨r, hr⟩ | ⟨c, -, hc⟩
  · exact ⟨_, by rw [hr, pushUnfilled_assignments], rfl⟩
  · exact ⟨_, by rw [hc, commit_assignments], rfl⟩

/-- Every branch of one shift's processing appends exactly one assignment
entry, carrying that shift's id. -/
theorem processShift_assignments (emap : JMap Employee) (amap : JMap (List Window))
    (exmap : JMap JVal) (st : SchedState) (sh : Shift) :
    ∃ a : Assignment, (processShift emap amap exmap st sh).assignments
      = st.assignments ++ [a] ∧ a.shiftId = sh.id := by
  simp only [processShift]
  split
  · exact ⟨_, rfl, rfl⟩
  · split
    · split
      · split
        · exact ⟨_, rfl, rfl⟩
        · exact freshAssign_assignments emap amap _ sh _
      · exact freshAssign_assignments emap amap st sh _
    · exact freshAssign_assignments emap amap st sh _

/-! ## C10 — missing-time check precedes the existing-assignment handling -/

/-- C10: for a shift whose normalized start or end is null, even when the
existing-assignment map names an employee for it, the scheduler emits only
the unfilled assignment and issue with the missing-time reason — the
existing pairing is neither kept nor released (totals, blocks and the rest
of the state are untouched), because the missing-time check runs first. -/
theorem missing_time_precedes_existing :
    ∀ (emap : JMap Employee) (amap : JMap (List Window)) (exmap : JMap JVal)
      (st : SchedState) (sh : Shift) (eid : JVal),
      sh.start = none ∨ sh.endT = none →
      aGet exmap sh.id = some eid →
      jsTruthy eid = true →
      processShift emap amap exmap st sh =
        { st with
          assignments := st.assignments ++ [⟨sh.id, none, some missingTimeReason⟩],
          issues := st.issues ++ [⟨sh.id, none, missingTimeReason⟩] } := by
  intro emap amap exmap st sh eid h hex htr
  unfold processShift
  rw [if_pos h]
  rfl

/-! ## C9 — malformed records are dropped, the run always completes -/

theorem employeeStep_skip (m : JMap Employee) (r : Rec)
    (h : jsTruthy ((readField r ["id", "employee_id", "employeeId"]).getD .nullv) = false) :
    employeeStep m r = m := by
  simp [employeeStep, h]

theorem mkShift_none (r : Rec)
    (h : jsTruthy ((readField r ["id", "shift_id", "Shift Id", "shiftId"]).getD .nullv) = false) :
    mkShift r = none := by
  simp [mkShift, h]

theorem availabilityStep_skip (m : JMap (List Window)) (r : Rec)
    (h : r.startT = none ∨ r.endT = none) : availabilityStep m r = m := by
  have hr : normalizeRange r.startT r.endT = (none, none) := by
    rcases h with h | h <;> rw [h]
    · rcases r.endT with _ | e <;> rfl
    · rcases r.startT with _ | s <;> rfl
  simp [availabilityStep, hr]

/-- Exclusion guarantees of the normalization layer: a record lacking
every id alias contributes nothing to the canonical employee map nor to
the canonical shift list, and an availability record whose combined start
or end fails to parse contributes no window.  (These parts of claim C9
hold of the source unconditionally — the normalizers have no throwing
path; the claim's further no-raise guarantee for the whole run is refuted
by `scheduler_reaches_throwing_name_comparison` below.) -/
theorem malformed_records_are_excluded :
    (∀ (l₁ l₂ : List Rec) (r : Rec),
      jsTruthy ((readField r ["id", "employee_id", "employeeId"]).getD .nullv) = false →
      normalizeEmployees (l₁ ++ r :: l₂) = normalizeEmployees (l₁ ++ l₂)) ∧
    (∀ (l₁ l₂ : List Rec) (r : Rec),
      jsTruthy ((readField r ["id", "shift_id", "Shift Id", "shiftId"]).getD .nullv) = false →
      normalizeShiftRecords (l₁ ++ r :: l₂) = normalizeShiftRecords (l₁ ++ l₂)) ∧
    (∀ (l₁ l₂ : List Rec) (r : Rec),
      r.startT = none ∨ r.endT = none →
      normalizeAvailability (l₁ ++ r :: l₂) = normalizeAvailability (l₁ ++ l₂)) := by
  refine ⟨?_, ?_, ?_⟩
  · intro l₁ l₂ r h
    simp [normalizeEmployees, List.foldl_append, employeeStep_skip _ r h]
  · intro l₁ l₂ r h
    simp [normalizeShiftRecords, List.filterMap_append, List.filterMap_cons, mkShift_none r h]
  · intro l₁ l₂ r h
    simp [normalizeAvailability, List.foldl_append, availabilityStep_skip _ r h]

/-! ## C4 — the weekly cap is never exceeded -/

/-- Well-formedness of the canonical employee map: keys do not repeat,
every entry is stored under its own id, and every cap is positive. -/
def EmpMapWF (m : JMap Employee) : Prop :=
  (m.map Prod.fst).Nodup ∧ ∀ p ∈ m, p.2.id = p.1 ∧ 0 < p.2.weeklyCap

/-- The cap invariant of the running pass: every known employee's
cumulative hours stay at or below their weekly cap. -/
def CapInv (emap : JMap Employee) (st : SchedState) : Prop :=
  ∀ id emp, aGet emap id = some emp → totalsGet st id ≤ emp.weeklyCap

theorem DEFAULT_WEEKLY_CAP_pos : 0 < DEFAULT_WEEKLY_CAP := by
  norm_num [DEFAULT_WEEKLY_CAP, Rat.mkRat_eq_div]

theorem employeeStep_wf {m : JMap Employee} (r : Rec) (h : EmpMapWF m) :
    EmpMapWF (employeeStep m r) := by
  simp only [employeeStep]
  split
  · constructor
    · exact nodupKeys_aSet _ _ h.1
    · intro p hp
      rcases mem_aSet hp with hp' | hp'
      · subst hp'
        refine ⟨rfl, ?_⟩
        dsimp only
        split
        · split
          · assumption
          · exact DEFAULT_WEEKLY_CAP_pos
        · exact DEFAULT_WEEKLY_CAP_pos
      · exact h.2 p hp'
  · exact h

theorem normalizeEmployees_wf (rs : List Rec) : EmpMapWF (normalizeEmployees rs) := by
  have hgen : ∀ (l : List Rec) (m : JMap Employee), EmpMapWF m → EmpMapWF (l.foldl employeeStep m) := by
    intro l
    induction l with
    | nil => intro m hm; exact hm
    | cons r t ih => intro m hm; exact ih _ (employeeStep_wf r hm)
  exact hgen rs [] ⟨List.nodup_nil, by simp⟩

theorem values_lookup {m : JMap Employee} (hwf : EmpMapWF m) {emp : Employee}
    (h : emp ∈ aValues m) : aGet m emp.id = some emp := by
  rcases mem_values_iff.mp h with ⟨k, hk⟩
  have hid := (hwf.2 _ hk).1
  dsimp only at hid
  rw [hid]
  exact aGet_of_mem_nodup hwf.1 hk

theorem mem_activeEmployeesFor {emap : JMap Employee} {needed : String} {emp : Employee}
    (h : emp ∈ activeEmployeesFor emap needed) :
    emp ∈ aValues emap ∧ emp.status = "active" ∧ accepts emp.role needed = true := by
  simp only [activeEmployeesFor, List.mem_filter, Bool.and_eq_true, decide_eq_true_eq] at h
  exact ⟨h.1, h.2.1, h.2.2⟩

theorem mem_availabilityCandidates {amap : JMap (List Window)} {pool : List Employee}
    {sh : Shift} {c : Cand} (h : c ∈ availabilityCandidates amap pool sh) :
    c.employee ∈ pool := by
  simp only [availabilityCandidates, List.mem_filter, List.mem_map] at h
  rcases h with ⟨⟨emp, hemp, heq⟩, -⟩
  rw [← heq]
  exact hemp

theorem mem_withinCapPool {st : SchedState} {pool : List Cand} {sh : Shift} {c : Cand}
    (h : c ∈ withinCapPool st pool sh) :
    c ∈ pool ∧ totalsGet st c.employee.id + sh.hours ≤ c.employee.weeklyCap := by
  simpa only [withinCapPool, List.mem_filter, decide_eq_true_eq] using h

theorem mem_conflictFreePool {st : SchedState} {pool : List Cand} {sh : Shift} {c : Cand}
    (h : c ∈ conflictFreePool st pool sh) :
    c ∈ pool ∧ overlaps (blocksGet st c.employee.id) sh.start sh.endT = false := by
  simpa only [conflictFreePool, List.mem_filter, Bool.not_eq_true'] using h

theorem capInv_freshAssign {emap : JMap Employee} {amap : JMap (List Window)}
    {st : SchedState} {sh : Shift} {needed : String}
    (hwf : EmpMapWF emap) (hInv : CapInv emap st) :
    CapInv emap (freshAssign emap amap st sh needed) := by
  rcases freshAssign_cases emap amap st sh needed with ⟨r, hr⟩ | ⟨c, hcmem, hc⟩
  · rw [hr]
    intro id emp h
    exact hInv id emp h
  · rw [hc]
    obtain ⟨hc3, hconf⟩ := mem_conflictFreePool hcmem
    obtain ⟨hc2, hcap⟩ := mem_withinCapPool hc3
    have hval : c.employee ∈ aValues emap := (mem_activeEmployeesFor (mem_availabilityCandidates hc2)).1
    have hlookc : aGet emap c.employee.id = some c.employee := values_lookup hwf hval
    intro id emp hlook
    by_cases hid : c.employee.id = id
    · subst hid
      rw [totalsGet_commit_self]
      rw [hlookc] at hlook
      injection hlook with he
      subst he
      exact hcap
    · rw [totalsGet_commit_ne _ _ _ _ hid]
      exact hInv id emp hlook

theorem capInv_processShift {emap : JMap Employee} {amap : JMap (List Window)}
    {exmap : JMap JVal} {st : SchedState} {sh : Shift}
    (hwf : EmpMapWF emap) (hInv : CapInv emap st) :
    CapInv emap (processShift emap amap exmap st sh) := by
  simp only [processShift]
  split
  · intro id emp h; exact hInv id emp h
  · split
    · split
      · split
        · rename_i eid heq htr hcan
          rcases hemp : aGet emap eid with _ | emp0
          · rw [hemp] at hcan
            cases hcan
          · rw [hemp] at hcan
            simp only [Bool.and_eq_true, decide_eq_true_eq] at hcan
            obtain ⟨⟨⟨⟨-, -⟩, -⟩, hle⟩, -⟩ := hcan
            intro id emp hlook
            by_cases hid : eid = id
            · subst hid
              rw [totalsGet_commit_self]
              rw [hemp] at hlook
              injection hlook with he
              subst he
              exact hle
            · rw [totalsGet_commit_ne _ _ _ _ hid]
              exact hInv id emp hlook
        · exact capInv_freshAssign hwf (fun id emp h => hInv id emp h)
      · exact capInv_freshAssign hwf hInv
    · exact capInv_freshAssign hwf hInv

theorem capInv_foldl {emap : JMap Employee} {amap : JMap (List Window)} {exmap : JMap JVal}
    (hwf : EmpMapWF emap) :
    ∀ (l : List Shift) (st : SchedState), CapInv emap st →
      CapInv emap (l.foldl (processShift emap amap exmap) st) := by
  intro l
  induction l with
  | nil => intro st h; exact h
  | cons sh t ih => intro st h; exact ih _ (capInv_processShift hwf h)

/-- C4: along every prefix of the scheduling pass, every known employee's
cumulative assigned hours stay at or below their weekly cap — a commit
only ever happens behind the cap check, for existing pairings and fresh
ones alike; and when the coverage-eligible candidates all fail the cap
check, the shift is left unfilled with the cap reason. -/
theorem scheduler_respects_weekly_cap :
    (∀ (shiftTemplate employees availability : List Rec) (existI : AssignInput)
       (l₁ l₂ : List Shift),
       normalizeShiftRecords shiftTemplate = l₁ ++ l₂ →
       ∀ id emp, aGet (normalizeEmployees employees) id = some emp →
         totalsGet (l₁.foldl (processShift (normalizeEmployees employees)
             (normalizeAvailability availability) (normalizeAssignments existI)) initState) id
           ≤ emp.weeklyCap) ∧
    (∀ (emap : JMap Employee) (amap : JMap (List Window)) (st : SchedState)
       (sh : Shift) (needed : String),
       availabilityCandidates amap (activeEmployeesFor emap needed) sh ≠ [] →
       withinCapPool st (availabilityCandidates amap (activeEmployeesFor emap needed) sh) sh
         = [] →
       freshAssign emap amap st sh needed = pushUnfilled st sh capReason) := by
  constructor
  · intro shiftTemplate employees availability existI l₁ l₂ hsplit id emp hlook
    have hwf := normalizeEmployees_wf employees
    have hInv0 : CapInv (normalizeEmployees employees) initState := by
      intro id' emp' h'
      have hpos := ((normalizeEmployees_wf employees).2 _ (mem_of_aGet h')).2
      have hz : totalsGet initState id' = 0 := rfl
      rw [hz]
      exact le_of_lt hpos
    exact capInv_foldl hwf l₁ initState hInv0 id emp hlook
  · intro emap amap st sh needed h2 h3
    have h1 : activeEmployeesFor emap needed ≠ [] := by
      intro h
      apply h2
      rw [h]
      rfl
    simp [freshAssign, h1, h2, h3]

/-! ## C5 — committed shifts of one employee never intersect -/

/-- Half-open intersection of two stored blocks' overnight-normalized
intervals: both ends present, both intervals non-empty, and the intervals
cross (`startA < endB` and `startB < endA`). -/
def BlockIntervalsIntersect (b₁ b₂ : Block) : Prop :=
  ∃ s₁ e₁ s₂ e₂,
    b₁.start = some s₁ ∧ b₁.endT = some e₁ ∧ b₂.start = some s₂ ∧ b₂.endT = some e₂ ∧
    s₁ < e₁ ∧ s₂ < e₂ ∧ s₁ < e₂ ∧ s₂ < e₁

/-- The no-double-booking invariant of the running pass. -/
def OverlapInv (st : SchedState) : Prop :=
  ∀ id, (blocksGet st id).Pairwise fun b₁ b₂ => ¬ BlockIntervalsIntersect b₁ b₂

theorem not_intersect_of_overlaps_false {bl : List Block} {s e : Option Int}
    (h : overlaps bl s e = false) {b : Block} (hb : b ∈ bl) (sid : JVal) :
    ¬ BlockIntervalsIntersect b ⟨s, e, sid⟩ := by
  rintro ⟨s₁, e₁, s₂, e₂, hb1, hb2, hc1, hc2, h11, h22, hx, hy⟩
  have hs : s = some s₂ := hc1
  have he : e = some e₂ := hc2
  subst hs
  subst he
  have htrue : overlaps bl (some s₂) (some e₂) = true := by
    have hnr : normalizeRange (some s₂) (some e₂) = (some s₂, some e₂) := by
      simp [normalizeRange, not_le.mpr h22]
    simp only [overlaps, hnr]
    refine List.any_eq_true.mpr ⟨b, hb, ?_⟩
    have hnrb : normalizeRange b.start b.endT = (some s₁, some e₁) := by
      rw [hb1, hb2]
      simp [normalizeRange, not_le.mpr h11]
    simp only [blockOverlapCheck, hnrb]
    simp [not_le.mpr h22, not_le.mpr h11, hx, hy]
  rw [h] at htrue
  cases htrue

theorem overlapInv_freshAssign {emap : JMap Employee} {amap : JMap (List Window)}
    {st : SchedState} {sh : Shift} {needed : String} (hInv : OverlapInv st) :
    OverlapInv (freshAssign emap amap st sh needed) := by
  rcases freshAssign_cases emap amap st sh needed with ⟨r, hr⟩ | ⟨c, hcmem, hc⟩
  · rw [hr]
    intro id
    exact hInv id
  · rw [hc]
    have hconf := (mem_conflictFreePool hcmem).2
    intro id
    by_cases hid : c.employee.id = id
    · subst hid
      rw [blocksGet_commit_self, List.pairwise_append]
      refine ⟨hInv _, List.pairwise_singleton _ _, ?_⟩
      intro a ha b hb
      rw [List.mem_singleton] at hb
      subst hb
      exact not_intersect_of_overlaps_false hconf ha sh.id
    · rw [blocksGet_commit_ne _ _ _ _ hid]
      exact hInv id

theorem overlapInv_processShift {emap : JMap Employee} {amap : JMap (List Window)}
    {exmap : JMap JVal} {st : SchedState} {sh : Shift} (hInv : OverlapInv st) :
    OverlapInv (processShift emap amap exmap st sh) := by
  simp only [processShift]
  split
  · intro id; exact hInv id
  · split
    · split
      · split
        · rename_i eid heq htr hcan
          rcases hemp : aGet emap eid with _ | emp0
          · rw [hemp] at hcan
            cases hcan
          · rw [hemp] at hcan
            simp only [Bool.and_eq_true, Bool.not_eq_true'] at hcan
            obtain ⟨⟨⟨⟨-, -⟩, -⟩, -⟩, hov⟩ := hcan
            intro id
            by_cases hid : eid = id
            · subst hid
              rw [blocksGet_commit_self, List.pairwise_append]
              refine ⟨hInv _, List.pairwise_singleton _ _, ?_⟩
              intro a ha b hb
              rw [List.mem_singleton] at hb
              subst hb
              exact not_intersect_of_overlaps_false hov ha sh.id
            · rw [blocksGet_commit_ne _ _ _ _ hid]
              exact hInv id
        · exact overlapInv_freshAssign fun id => hInv id
      · exact overlapInv_freshAssign hInv
    · exact overlapInv_freshAssign hInv

theorem overlapInv_foldl {emap : JMap Employee} {amap : JMap (List Window)}
    {exmap : JMap JVal} :
    ∀ (l : List Shift) (st : SchedState), OverlapInv st →
      OverlapInv (l.foldl (processShift emap amap exmap) st) := by
  intro l
  induction l with
  | nil => intro st h; exact h
  | cons sh t ih => intro st h; exact ih _ (overlapInv_processShift h)

/-- C5: along every prefix of the scheduling pass, the occupied blocks
committed to any one employee are pairwise non-intersecting (half-open
intersection of the overnight-normalized shift intervals); and when the
cap-eligible candidates all carry an overlapping occupied block, the
shift is left unfilled with the conflict reason. -/
theorem scheduler_no_double_booking :
    (∀ (shiftTemplate employees availability : List Rec) (existI : AssignInput)
       (l₁ l₂ : List Shift),
       normalizeShiftRecords shiftTemplate = l₁ ++ l₂ →
       ∀ id,
         (blocksGet (l₁.foldl (processShift (normalizeEmployees employees)
             (normalizeAvailability availability) (normalizeAssignments existI)) initState)
             id).Pairwise fun b₁ b₂ => ¬ BlockIntervalsIntersect b₁ b₂) ∧
    (∀ (emap : JMap Employee) (amap : JMap (List Window)) (st : SchedState)
       (sh : Shift) (needed : String),
       withinCapPool st (availabilityCandidates amap (activeEmployeesFor emap needed) sh) sh
         ≠ [] →
       conflictFreePool st
         (withinCapPool st
           (availabilityCandidates amap (activeEmployeesFor emap needed) sh) sh) sh = [] →
       freshAssign emap amap st sh needed = pushUnfilled st sh conflictReason) := by
  constructor
  · intro shiftTemplate employees availability existI l₁ l₂ hsplit id
    have hInv0 : OverlapInv initState := fun _ => List.Pairwise.nil
    exact overlapInv_foldl l₁ initState hInv0 id
  · intro emap amap st sh needed h3 h4
    have h2 : availabilityCandidates amap (activeEmployeesFor emap needed) sh ≠ [] := by
      intro h
      apply h3
      rw [h]
      rfl
    have h1 : activeEmployeesFor emap needed ≠ [] := by
      intro h
      apply h2
      rw [h]
      rfl
    simp [freshAssign, h1, h2, h3, h4]

/-! ## C6 — the tie-break picks the least surviving candidate -/

theorem strLeAux_total : ∀ as bs : List Char, strLeAux as bs = true ∨ strLeAux bs as = true := by
  intro as
  induction as with
  | nil => intro bs; left; rfl
  | cons a at' ih =>
    intro bs
    cases bs with
    | nil => right; rfl
    | cons b bt =>
      by_cases h1 : a.toNat < b.toNat
      · left; simp [strLeAux, h1]
      · by_cases h2 : b.toNat < a.toNat
        · right; simp [strLeAux, h2]
        · simp only [strLeAux, if_neg h1, if_neg h2]
          exact ih bt

theorem strLeAux_trans : ∀ as bs cs : List Char,
    strLeAux as bs = true → strLeAux bs cs = true → strLeAux as cs = true := by
  intro as
  induction as with
  | nil => intro bs cs h1 h2; rfl
  | cons a at' ih =>
    intro bs cs h1 h2
    cases bs with
    | nil => simp [strLeAux] at h1
    | cons b bt =>
      cases cs with
      | nil => simp [strLeAux] at h2
      | cons c ct =>
        simp only [strLeAux] at h1 h2 ⊢
        by_cases hab : a.toNat < b.toNat
        · by_cases hbc : b.toNat < c.toNat
          · rw [if_pos (by omega)]
          · by_cases hcb : c.toNat < b.toNat
            · rw [if_neg hbc, if_pos hcb] at h2
              cases h2
            · rw [if_pos (by omega)]
        · by_cases hba : b.toNat < a.toNat
          · rw [if_neg hab, if_pos hba] at h1
            cases h1
          · by_cases hbc : b.toNat < c.toNat
            · rw [if_pos (by omega)]
            · by_cases hcb : c.toNat < b.toNat
              · rw [if_neg hbc, if_pos hcb] at h2
                cases h2
              · rw [if_neg hab, if_neg hba] at h1
                rw [if_neg hbc, if_neg hcb] at h2
                rw [if_neg (by omega), if_neg (by omega)]
                exact ih bt ct h1 h2

theorem strLeB_total (a b : String) : strLeB a b = true ∨ strLeB b a = true :=
  strLeAux_total a.data b.data

theorem strLeB_trans {a b c : String} (h1 : strLeB a b = true) (h2 : strLeB b c = true) :
    strLeB a c = true :=
  strLeAux_trans a.data b.data c.data h1 h2

/-- The total order of the spec's tie-break, stated directly: a preferred
covering window first; among ties strictly lower cumulative hours; among
ties strictly fewer committed assignments; among ties the lexicographically
smaller name. -/
def specOrderLe (st : SchedState) (a b : Cand) : Prop :=
  (a.covPref = true ∧ b.covPref = false) ∨
  (a.covPref = b.covPref ∧
    (totalsGet st a.employee.id < totalsGet st b.employee.id ∨
      (totalsGet st a.employee.id = totalsGet st b.employee.id ∧
        ((blocksGet st a.employee.id).length < (blocksGet st b.employee.id).length ∨
          ((blocksGet st a.employee.id).length = (blocksGet st b.employee.id).length ∧
            strLeB (nameKey a) (nameKey b) = true)))))

/-- The scheduler's comparator agrees with the spec's total order. -/
theorem candLe_iff_spec (st : SchedState) (a b : Cand) :
    candLe st a b = true ↔ specOrderLe st a b := by
  cases ha : a.covPref <;> cases hb : b.covPref <;>
    simp only [candLe, specOrderLe, ha, hb, ne_eq, not_true_eq_false, not_false_eq_true,
      if_true, if_false, Bool.true_eq_false, Bool.false_eq_true, false_and, and_false,
      true_and, and_true, false_or, or_false, not_not, decide_eq_true_eq]
  all_goals try simp
  all_goals
    by_cases hh : totalsGet st a.employee.id = totalsGet st b.employee.id
  all_goals try
    · rw [if_pos hh, hh]
      simp only [lt_self_iff_false, false_or, true_and]
      by_cases hc : (blocksGet st a.employee.id).length = (blocksGet st b.employee.id).length
      · rw [if_pos hc, hc]
        simp
      · rw [if_neg hc]
        simp [hc]
  all_goals
    rw [if_neg hh]
    simp [hh]

theorem specOrderLe_total (st : SchedState) (a b : Cand) :
    specOrderLe st a b ∨ specOrderLe st b a := by
  unfold specOrderLe
  cases ha : a.covPref <;> cases hb : b.covPref
  · rcases lt_trichotomy (totalsGet st a.employee.id) (totalsGet st b.employee.id)
      with h | h | h
    · exact Or.inl (Or.inr ⟨rfl, Or.inl h⟩)
    · rcases lt_trichotomy ((blocksGet st a.employee.id).length)
        ((blocksGet st b.employee.id).length) with h' | h' | h'
      · exact Or.inl (Or.inr ⟨rfl, Or.inr ⟨h, Or.inl h'⟩⟩)
      · rcases strLeB_total (nameKey a) (nameKey b) with hn | hn
        · exact Or.inl (Or.inr ⟨rfl, Or.inr ⟨h, Or.inr ⟨h', hn⟩⟩⟩)
        · exact Or.inr (Or.inr ⟨rfl, Or.inr ⟨h.symm, Or.inr ⟨h'.symm, hn⟩⟩⟩)
      · exact Or.inr (Or.inr ⟨rfl, Or.inr ⟨h.symm, Or.inl h'⟩⟩)
    · exact Or.inr (Or.inr ⟨rfl, Or.inl h⟩)
  · exact Or.inr (Or.inl ⟨rfl, rfl⟩)
  · exact Or.inl (Or.inl ⟨rfl, rfl⟩)
  · rcases lt_trichotomy (totalsGet st a.employee.id) (totalsGet st b.employee.id)
      with h | h | h
    · exact Or.inl (Or.inr ⟨rfl, Or.inl h⟩)
    · rcases lt_trichotomy ((blocksGet st a.employee.id).length)
        ((blocksGet st b.employee.id).length) with h' | h' | h'
      · exact Or.inl (Or.inr ⟨rfl, Or.inr ⟨h, Or.inl h'⟩⟩)
      · rcases strLeB_total (nameKey a) (nameKey b) with hn | hn
        · exact Or.inl (Or.inr ⟨rfl, Or.inr ⟨h, Or.inr ⟨h', hn⟩⟩⟩)
        · exact Or.inr (Or.inr ⟨rfl, Or.inr ⟨h.symm, Or.inr ⟨h'.symm, hn⟩⟩⟩)
      · exact Or.inr (Or.inr ⟨rfl, Or.inr ⟨h.symm, Or.inl h'⟩⟩)
    · exact Or.inr (Or.inr ⟨rfl, Or.inl h⟩)

theorem specOrderLe_trans (st : SchedState) (a b c : Cand)
    (h1 : specOrderLe st a b) (h2 : specOrderLe st b c) : specOrderLe st a c := by
  unfold specOrderLe at h1 h2 ⊢
  rcases h1 with ⟨ha, hb⟩ | ⟨hp1, h1⟩
  · rcases h2 with ⟨hb', hc⟩ | ⟨hp2, h2⟩
    · rw [hb] at hb'; cases hb'
    · exact Or.inl ⟨ha, hb ▸ hp2.symm⟩
  · rcases h2 with ⟨hb', hc⟩ | ⟨hp2, h2⟩
    · exact Or.inl ⟨hp1.trans hb', hc⟩
    · refine Or.inr ⟨hp1.trans hp2, ?_⟩
      rcases h1 with h1 | ⟨he1, h1⟩
      · rcases h2 with h2 | ⟨he2, h2⟩
        · exact Or.inl (h1.trans h2)
        · exact Or.inl (he2 ▸ h1)
      · rcases h2 with h2 | ⟨he2, h2⟩
        · exact Or.inl (he1 ▸ h2)
        · refine Or.inr ⟨he1.trans he2, ?_⟩
          rcases h1 with h1 | ⟨hl1, h1⟩
          · rcases h2 with h2 | ⟨hl2, h2⟩
            · exact Or.inl (h1.trans h2)
            · exact Or.inl (hl2 ▸ h1)
          · rcases h2 with h2 | ⟨hl2, h2⟩
            · exact Or.inl (hl1 ▸ h2)
            · exact Or.inr ⟨hl1.trans hl2, strLeB_trans h1 h2⟩

theorem sortedPool_sorted (st : SchedState) (pool : List Cand) :
    (sortedPool st pool).Sorted fun a b => candLe st a b = true := by
  haveI : IsTotal Cand fun a b => candLe st a b = true :=
    ⟨fun a b => by
      rcases specOrderLe_total st a b with h | h
      · exact Or.inl ((candLe_iff_spec st a b).mpr h)
      · exact Or.inr ((candLe_iff_spec st b a).mpr h)⟩
  haveI : IsTrans Cand fun a b => candLe st a b = true :=
    ⟨fun a b c h1 h2 =>
      (candLe_iff_spec st a c).mpr
        (specOrderLe_trans st a b c
          ((candLe_iff_spec st a b).mp h1) ((candLe_iff_spec st b c).mp h2))⟩
  exact List.sorted_insertionSort _ pool

/-- C6: whenever two or more candidates survive the coverage, cap and
conflict filters, the scheduler commits a least candidate of the surviving
pool under the spec's total order — preferred covering window first, then
strictly lower cumulative hours, then strictly fewer committed
assignments, then the lexicographically smaller name. -/
theorem scheduler_tiebreak_picks_least :
    ∀ (emap : JMap Employee) (amap : JMap (List Window)) (st : SchedState)
      (sh : Shift) (needed : String),
      2 ≤ (conflictFreePool st (withinCapPool st
          (availabilityCandidates amap (activeEmployeesFor emap needed) sh) sh) sh).length →
      ∃ c,
        freshAssign emap amap st sh needed = commit st sh c.employee.id ∧
        c ∈ conflictFreePool st (withinCapPool st
          (availabilityCandidates amap (activeEmployeesFor emap needed) sh) sh) sh ∧
        ∀ d ∈ conflictFreePool st (withinCapPool st
          (availabilityCandidates amap (activeEmployeesFor emap needed) sh) sh) sh,
          specOrderLe st c d := by
  intro emap amap st sh needed hlen
  have h4 : conflictFreePool st (withinCapPool st
      (availabilityCandidates amap (activeEmployeesFor emap needed) sh) sh) sh ≠ [] := by
    intro h
    rw [h] at hlen
    simp at hlen
  have h3 : withinCapPool st
      (availabilityCandidates amap (activeEmployeesFor emap needed) sh) sh ≠ [] := by
    intro h
    apply h4
    rw [h]
    rfl
  have h2 : availabilityCandidates amap (activeEmployeesFor emap needed) sh ≠ [] := by
    intro h
    apply h3
    rw [h]
    rfl
  have h1 : activeEmployeesFor emap needed ≠ [] := by
    intro h
    apply h2
    rw [h]
    rfl
  rcases hs : sortedPool st (conflictFreePool st (withinCapPool st
      (availabilityCandidates amap (activeEmployeesFor emap needed) sh) sh) sh)
    with _ | ⟨c, rest⟩
  · exfalso
    apply h4
    have := (sortedPool_perm st (conflictFreePool st (withinCapPool st
      (availabilityCandidates amap (activeEmployeesFor emap needed) sh) sh) sh)).length_eq
    rw [hs] at this
    exact List.length_eq_zero.mp this.symm
  · refine ⟨c, ?_, ?_, ?_⟩
    · simp [freshAssign, h1, h2, h3, h4, hs]
    · have hc : c ∈ sortedPool st (conflictFreePool st (withinCapPool st
          (availabilityCandidates amap (activeEmployeesFor emap needed) sh) sh) sh) := by
        rw [hs]
        exact List.mem_cons_self _ _
      exact (sortedPool_perm st _).mem_iff.mp hc
    · intro d hd
      have hd' : d ∈ sortedPool st (conflictFreePool st (withinCapPool st
          (availabilityCandidates amap (activeEmployeesFor emap needed) sh) sh) sh) :=
        (sortedPool_perm st _).mem_iff.mpr hd
      rw [hs] at hd'
      rcases List.mem_cons.mp hd' with hdc | hdr
      · subst hdc
        rcases specOrderLe_total st d d with h | h
        · exact h
        · exact h
      · have hsorted := sortedPool_sorted st (conflictFreePool st (withinCapPool st
            (availabilityCandidates amap (activeEmployeesFor emap needed) sh) sh) sh)
        rw [hs] at hsorted
        have := (List.pairwise_cons.mp hsorted).1 d hdr
        exact (candLe_iff_spec st c d).mp this

/-! ## Concrete scenarios: the role-matching disagreements (C1, C2, C3)
and witnesses.

The records below build one 12-hour shift (milliseconds 0 to 43 200 000),
one active CNA employee with a fully covering availability window, and the
matching inputs in the loose record shape the normalizer accepts.  The
`Rat` arithmetic operations are `@[irreducible]` in the ambient library;
this section restores their reducibility locally so that the closed
evaluations below go through by `decide`. -/

section

attribute [local semireducible] Rat.add Rat.mul Rat.sub

/-- An employee record: id `e1`, role CNA, default status and cap. -/
def empRecCNA : Rec :=
  { own := [("id", .str "e1"), ("role", .str "CNA"), ("name", .str "Ann")] }

/-- A shift record requiring the composite role CNA_OR_CMA. -/
def shiftRecOr : Rec :=
  { own := [("id", .str "s1"), ("role_needed", .str "CNA_OR_CMA")],
    startT := some 0, endT := some 43200000 }

/-- A shift record whose requirement is the literal "Either". -/
def shiftRecEither : Rec :=
  { own := [("id", .str "s1"), ("role_needed", .str "Either")],
    startT := some 0, endT := some 43200000 }

/-- An availability window of `e1` fully covering the shift. -/
def availRec1 : Rec :=
  { own := [("employee_id", .str "e1")], startT := some 0, endT := some 43200000 }

/-- C1 (refuted on the code): a run in which the scheduler fills its one
shift — full coverage, no cap breach, no conflict — yet `validate` over
that very output and the same raw inputs returns a `role_mismatch` error
rather than the empty list: the scheduler's `accepts` admits a CNA
employee for a CNA_OR_CMA shift while the validator's role check demands
string equality with the requirement. -/
theorem scheduler_validator_disagree_on_composite_role :
    (schedule [shiftRecOr] [empRecCNA] [availRec1] (.arrI [])).assignments
      = [⟨.str "s1", some (.str "e1"), none⟩] ∧
    ((validate (schedule [shiftRecOr] [empRecCNA] [availRec1] (.arrI [])).assignments
        [shiftRecOr] [empRecCNA] [availRec1]).map (·.etype)) = ["role_mismatch"] := by
  constructor
  · decide
  · decide

/-- C2 (refuted on the code): the scheduler's local `accepts` handles the
composite CNA_OR_CMA requirement but has no empty-requirement case, so for
the "any role" marker (the normalized form of "Either") it rejects every
employee whose own role is non-empty — the candidate pool for such a shift
excludes a CNA employee — although the repository's shared `roleMatches`
(commented as used by scheduler and validator) accepts any role there. -/
theorem scheduler_accepts_rejects_any_role :
    accepts "CNA" "" = false ∧
    roleMatches "CNA" "" = true ∧
    activeEmployeesFor (normalizeEmployees [empRecCNA]) "" = [] ∧
    accepts "CNA" "CNA_OR_CMA" = true ∧
    accepts "CMA" "CNA_OR_CMA" = true ∧
    accepts "RN" "CNA_OR_CMA" = false := by
  decide

/-- C3 (refuted on the code): the normalizer collapses "Either" to the
empty any-role marker, but the validator's sentinel check compares the
normalized requirement against the literal "EITHER"; so for an assignment
pairing an "Either" shift with a (fully available, active) CNA employee
the validator emits a `role_mismatch` error although the shift's
requirement is the any-role marker. -/
theorem validator_flags_any_role_marker :
    (normalizeShiftRecords [shiftRecEither]).map (·.roleNeeded) = [""] ∧
    (validate [⟨.str "s1", some (.str "e1"), none⟩] [shiftRecEither] [empRecCNA]
        [availRec1]).map (·.etype) = ["role_mismatch"] := by
  constructor
  · decide
  · decide

/-- A shift with a missing (unparsable) start time, named by the
existing-assignment map. -/
def shMissing : Shift := ⟨.str "s1", "", none, some 0, mkRat 0 1⟩

/-- An existing-assignment map pairing the broken shift with employee
`e1`. -/
def exmapW : JMap JVal := [(.str "s1", .str "e1")]

/-- Witness for C10 at a concrete input: the pass emits exactly the
missing-time assignment and issue and keeps the rest of the state. -/
theorem missing_time_precedes_existing_witness :
    processShift [] [] exmapW initState shMissing =
      { initState with
        assignments := initState.assignments
          ++ [⟨shMissing.id, none, some missingTimeReason⟩],
        issues := initState.issues ++ [⟨shMissing.id, none, missingTimeReason⟩] } :=
  missing_time_precedes_existing [] [] exmapW initState shMissing (.str "e1")
    (Or.inl rfl) (by decide) (by decide)

/-- Canonical employee Ann (id `e1`). -/
def empA : Employee := ⟨.str "e1", .str "Ann", "CNA", "active", mkRat 40 1⟩

/-- Canonical employee Bob (id `e2`). -/
def empB : Employee := ⟨.str "e2", .str "Bob", "CNA", "active", mkRat 40 1⟩

/-- A two-employee map for the tie-break witness. -/
def emapW : JMap Employee := [(.str "e1", empA), (.str "e2", empB)]

/-- Both employees fully cover the witness shift. -/
def amapW : JMap (List Window) :=
  [(.str "e1", [⟨0, 43200000, false⟩]), (.str "e2", [⟨0, 43200000, false⟩])]

/-- The witness shift: 12 hours, role CNA. -/
def shW : Shift := ⟨.str "s1", "CNA", some 0, some 43200000, mkRat 12 1⟩

/-- An active CNA employee whose `name` field is the number 1 — a truthy
non-string value, as the loose record shape permits. -/
def empRecNum1 : Rec :=
  { own := [("id", .str "e1"), ("role", .str "CNA"), ("name", .num 1)] }

/-- A second such employee, name the number 2. -/
def empRecNum2 : Rec :=
  { own := [("id", .str "e2"), ("role", .str "CNA"), ("name", .num 2)] }

/-- Availability of `e1` fully covering the shift below. -/
def availRecNum1 : Rec :=
  { own := [("employee_id", .str "e1")], startT := some 0, endT := some 43200000 }

/-- Availability of `e2` fully covering the shift below. -/
def availRecNum2 : Rec :=
  { own := [("employee_id", .str "e2")], startT := some 0, endT := some 43200000 }

/-- A CNA shift record for the numeric-name run. -/
def shiftRecCNA : Rec :=
  { own := [("id", .str "s1"), ("role_needed", .str "CNA")],
    startT := some 0, endT := some 43200000 }

/-- The canonical form of `shiftRecCNA`. -/
def shCNA : Shift := ⟨.str "s1", "CNA", some 0, some 43200000, mkRat 12 1⟩

/-- The surviving candidate pool the pass computes for `shCNA` from the
numeric-name records, exactly as `processShift` builds it from the empty
initial state. -/
def poolNum : List Cand :=
  conflictFreePool initState
    (withinCapPool initState
      (availabilityCandidates (normalizeAvailability [availRecNum1, availRecNum2])
        (activeEmployeesFor (normalizeEmployees [empRecNum1, empRecNum2])
          (normStr shCNA.roleNeeded))
        shCNA)
      shCNA)
    shCNA

/-- C9 (refuted on the code): at this input — one CNA shift and two tied
active CNA employees whose `name` fields are the numbers 1 and 2, both
fully available — the pass reaches the sort with a two-candidate
surviving pool, every pairwise comparator invocation on that pool ties
through the preferred, hours and assignment-count stages, and both
candidates' name tie-break receivers are truthy non-strings.  So the
first comparator call the sort makes evaluates `(1).localeCompare(...)`
and throws TypeError: the source's `schedule` raises on this
value-malformed input instead of returning a result, where the claim
(and spec §7, which reserves exceptions for malformed shapes) says the
run always completes. -/
theorem scheduler_reaches_throwing_name_comparison :
    normalizeShiftRecords [shiftRecCNA] = [shCNA] ∧
    poolNum.length = 2 ∧
    (poolNum.all fun a => poolNum.all fun b =>
      comparatorReachesNameStep initState a b && nameTieBreakThrows a) = true := by
  refine ⟨?_, ?_, ?_⟩
  · decide
  · decide
  · decide

/-- Witness for C6 at a concrete input with two surviving candidates. -/
theorem scheduler_tiebreak_picks_least_witness :
    ∃ c,
      freshAssign emapW amapW initState shW "CNA" = commit initState shW c.employee.id ∧
      c ∈ conflictFreePool initState (withinCapPool initState
        (availabilityCandidates amapW (activeEmployeesFor emapW "CNA") shW) shW) shW ∧
      ∀ d ∈ conflictFreePool initState (withinCapPool initState
        (availabilityCandidates amapW (activeEmployeesFor emapW "CNA") shW) shW) shW,
        specOrderLe initState c d :=
  scheduler_tiebreak_picks_least emapW amapW initState shW "CNA" (by decide)

end
